import Mathlib

/-!
Shallow embedding of the SVG-path-to-planar-geometry pipeline of
`svg_import.py` (functions `edges_from_svg_path`, `fill_gaps_between_edges`,
`known_continuous_edges_to_wire`, `unnest_paths`, `wires_from_svg_path`,
`faces_from_svg_path`).

Modelling conventions:
- float coordinates are modelled by rationals (`Point := ℚ × ℚ`);
- the geometry kernel (build123d / OCCT) is an external collaborator: an
  `Edge` records the construction arguments handed to the kernel (kind,
  endpoints, validity flag, elliptical-arc parameters);
- `abs(vector) > tolerance` is modelled on squared lengths: for any real
  tolerance t and vector v, |v| > t holds iff t < 0 or t^2 < |v|^2, which
  keeps the comparison inside ℚ (`dist_gt`);
- the containment predicate `Path.is_contained_by` lives in the external
  svgpathtools library; the nesting resolver takes it as a boolean
  parameter indexed by position in the flattened subpath list;
- Python dict/`defaultdict` state is modelled by an insertion-ordered
  association list (`addToGroup` updates the first entry with the key, or
  appends a fresh entry at the end, exactly like a Python 3.7+ dict);
- Python `max(xs, key=k)` keeps the earliest element on ties and replaces
  the running maximum only on a strictly greater key (`py_max`).
-/

namespace SvgImport

/-- A 2D point in document space. -/
abbrev Point := ℚ × ℚ

/-- Squared euclidean distance between two points. -/
def sqDist (p q : Point) : ℚ :=
  (p.1 - q.1) ^ 2 + (p.2 - q.2) ^ 2

/-- Model of `abs(p - q) > tolerance` on squared distances: for a real
tolerance t, |v| > t iff t < 0 or t^2 < |v|^2. -/
def dist_gt (tolerance d2 : ℚ) : Bool :=
  decide (tolerance < 0) || decide (tolerance ^ 2 < d2)

/-- Parameters of one svgpathtools `Arc` segment: endpoints, center, radii,
start angle `theta`, signed sweep `delta`, x-axis rotation `phi` and the
sweep flag. -/
structure ArcSeg where
  astart : Point
  aend : Point
  center : Point
  rx : ℚ
  ry : ℚ
  theta : ℚ
  delta : ℚ
  phi : ℚ
  sweep : Bool
deriving DecidableEq

/-- One svgpathtools path segment.  `other` stands for a segment object of
any type not recognized by `edges_from_svg_path` (the Python `Path`
container accepts arbitrary segment objects). -/
inductive Segment where
  | line (s e : Point)
  | quad (s c e : Point)
  | cubic (s c1 c2 e : Point)
  | arc (a : ArcSeg)
  | other (s e : Point)
deriving DecidableEq

def Segment.startPt : Segment → Point
  | .line s _ => s
  | .quad s _ _ => s
  | .cubic s _ _ _ => s
  | .arc a => a.astart
  | .other s _ => s

def Segment.endPt : Segment → Point
  | .line _ e => e
  | .quad _ _ e => e
  | .cubic _ _ _ e => e
  | .arc a => a.aend
  | .other _ e => e

/-- Whether `edges_from_svg_path` has an `isinstance` branch for the
segment (Line / QuadraticBezier / CubicBezier / Arc). -/
def Segment.recognized : Segment → Bool
  | .other _ _ => false
  | _ => true

/-- The arguments of the `Edge.make_ellipse` call built for an `Arc`
segment (svg_import.py lines 186-203): the `phi` rotation applied
afterwards is recorded in radians (the RAD2DEG conversion happens at the
kernel boundary). -/
structure EllipseSpec where
  x_radius : ℚ
  y_radius : ℚ
  center : Point
  start_angle : ℚ
  end_angle : ℚ
  ccw : Bool
  phi : ℚ
deriving DecidableEq

/-- svg_import.py lines 186-203: the direction flag is COUNTER_CLOCKWISE
iff `segment.sweep`; `start_angle = segment.theta`,
`end_angle = segment.theta + segment.delta`, and the kernel receives
`min(start_angle, end_angle)` and `max(start_angle, end_angle)`. -/
def arcToEllipseSpec (a : ArcSeg) : EllipseSpec :=
  let start_angle := a.theta
  let end_angle := a.theta + a.delta
  { x_radius := a.rx
    y_radius := a.ry
    center := a.center
    start_angle := min start_angle end_angle
    end_angle := max start_angle end_angle
    ccw := a.sweep
    phi := a.phi }

inductive EdgeKind where
  | lineE
  | bezierE
  | ellipseE
deriving DecidableEq

/-- A kernel curve as seen by this pipeline: construction kind, nominal
endpoints, the kernel validity flag and, for elliptical arcs, the
construction record.  For an arc the kernel endpoints approximate the
nominal segment endpoints; the stitcher exists precisely to absorb that
approximation, so the nominal endpoints are recorded here. -/
structure Edge where
  kind : EdgeKind
  start_point : Point
  end_point : Point
  is_valid : Bool
  ellipse : Option EllipseSpec
deriving DecidableEq

def Edge.make_line (p q : Point) : Edge :=
  { kind := .lineE, start_point := p, end_point := q, is_valid := true, ellipse := none }

def Edge.make_bezier (pts : List Point) : Edge :=
  { kind := .bezierE
    start_point := pts.headD (0, 0)
    end_point := pts.getLastD (0, 0)
    is_valid := true
    ellipse := none }

def Edge.make_ellipse (s e : Point) (spec : EllipseSpec) : Edge :=
  { kind := .ellipseE, start_point := s, end_point := e, is_valid := true, ellipse := some spec }

/-- svg_import.py lines 156-204, `edges_from_svg_path`: an `isinstance`
chain over the four recognized segment types; a segment matching no branch
falls through the chain and yields nothing. -/
def edges_from_svg_path : List Segment → List Edge
  | [] => []
  | s :: rest =>
    (match s with
      | .line a b => [Edge.make_line a b]
      | .quad a c b => [Edge.make_bezier [a, c, b]]
      | .cubic a c1 c2 b => [Edge.make_bezier [a, c1, c2, b]]
      | .arc a => [Edge.make_ellipse a.astart a.aend (arcToEllipseSpec a)]
      | .other _ _ => []) ++ edges_from_svg_path rest

/-- svg_import.py lines 214-228, the loop body of
`fill_gaps_between_edges`, with each produced edge tagged by whether it is
a synthesized connector (`true`) or an input edge (`false`); `e0end` is
the tracked end point of the last emitted input edge. -/
def fill_gaps_core (tolerance : ℚ) : Point → List Edge → List (Edge × Bool)
  | _, [] => []
  | e0end, e :: rest =>
    if dist_gt tolerance (sqDist e.start_point e0end) then
      (Edge.make_line e0end e.start_point, true)
        :: (e, false) :: fill_gaps_core tolerance e.end_point rest
    else
      (e, false) :: fill_gaps_core tolerance e.end_point rest

/-- `fill_gaps_between_edges` with the synthesized-connector tag kept. -/
def fill_gaps_tagged (edges : List Edge) (tolerance : ℚ) : List (Edge × Bool) :=
  match edges.filter Edge.is_valid with
  | [] => []
  | e :: rest => (e, false) :: fill_gaps_core tolerance e.end_point rest

/-- svg_import.py lines 214-228: filter out invalid edges, emit the first
edge, then walk the rest inserting a straight connector whenever the next
edge's start point is more than `tolerance` away from the tracked end
point.  Empty (or all-invalid) input yields the empty sequence. -/
def fill_gaps_between_edges (edges : List Edge) (tolerance : ℚ) : List Edge :=
  (fill_gaps_tagged edges tolerance).map Prod.fst

/-- svg_import.py lines 207-211: `Wire.make_wire` assembles the stitched
edges without reordering or splitting (the wire is modelled by its edge
list); the tolerance is the hardcoded literal `1e-7`. -/
def known_continuous_edges_to_wire (edges : List Edge) : List Edge :=
  fill_gaps_between_edges edges (1 / 10000000)

/-! ## The loop nesting resolver (`unnest_paths`, svg_import.py lines 231-265)

Subpaths are identified by their position in the flattened list of
continuous subpaths; `contains i j` models the external
`continuous_paths[i].is_contained_by(continuous_paths[j])` call. -/

/-- svg_import.py lines 239-244: the set of indices `j` whose subpath
contains subpath `i`, as the increasing duplicate-free list drawn from
`range n`. -/
def included_in (n : ℕ) (contains : ℕ → ℕ → Bool) (i : ℕ) : List ℕ :=
  (List.range n).filter (fun j => decide (i ≠ j) && contains i j)

/-- Python `max(xs, key=key)`: left fold keeping the current value unless
the candidate's key is strictly greater (earliest maximum wins). -/
def py_max (key : ℕ → ℕ) : List ℕ → ℕ
  | [] => 0
  | x :: xs => xs.foldl (fun b c => if key b < key c then c else b) x

/-- One entry of the `exterior_and_interiors` dict: key, recorded
exterior candidates, recorded interiors. -/
abbrev NestGroup := ℕ × List ℕ × List ℕ

/-- `defaultdict(lambda: ([], []))` update: append `v` to the exterior
(`isExt = true`) or interior list of the first entry keyed `k`, creating a
fresh entry at the end when the key is absent (Python dicts preserve
insertion order). -/
def addToGroup : List NestGroup → ℕ → Bool → ℕ → List NestGroup
  | [], k, isExt, v => [(k, if isExt then ([v], []) else ([], [v]))]
  | g :: rest, k, isExt, v =>
    if g.1 = k then
      (k, if isExt then (g.2.1 ++ [v], g.2.2) else (g.2.1, g.2.2 ++ [v])) :: rest
    else
      g :: addToGroup rest k isExt v

/-- svg_import.py lines 248-255, the classification of one subpath:
`(true, i)` means subpath `i` is recorded as an exterior under its own
key, `(false, p)` that it is recorded as an interior of key `p`. -/
def classify (n : ℕ) (contains : ℕ → ℕ → Bool) (i : ℕ) : Bool × ℕ :=
  let ancestors := included_in n contains i
  if ancestors.length % 2 = 1 then
    (false, py_max (fun j => (included_in n contains j).length) ancestors)
  else
    (true, i)

/-- One iteration of the classification loop: record subpath `i` under
the key and role chosen by `classify`. -/
def nestStep (n : ℕ) (contains : ℕ → ℕ → Bool) (d : List NestGroup) (i : ℕ) : List NestGroup :=
  addToGroup d (classify n contains i).2 (classify n contains i).1 i

/-- svg_import.py lines 246-255: build the `exterior_and_interiors`
mapping by scanning the subpaths in index order. -/
def buildGroups (n : ℕ) (contains : ℕ → ℕ → Bool) : List NestGroup :=
  (List.range n).foldl (nestStep n contains) []

/-- svg_import.py lines 257-265: a group with exactly one recorded
exterior yields that exterior with its interiors; otherwise (after a
warning) every member of the group is yielded as a plain exterior with no
interiors, interiors first (`chain(interiors, exteriors)`). -/
def yieldGroup (g : NestGroup) : List (ℕ × List ℕ) :=
  match g.2.1 with
  | [e] => [(e, g.2.2)]
  | exts => (g.2.2 ++ exts).map (fun p => (p, []))

/-- svg_import.py lines 231-265, `unnest_paths` on the flattened list of
continuous subpaths, at the level of subpath indices. -/
def unnest_core (n : ℕ) (contains : ℕ → ℕ → Bool) : List (ℕ × List ℕ) :=
  (buildGroups n contains).flatMap yieldGroup

/-- First-match lookup of a key's recorded lists in the group mapping
(`([], [])` is the defaultdict default). -/
def lookupGroup : List NestGroup → ℕ → List ℕ × List ℕ
  | [], _ => ([], [])
  | g :: rest, k => if g.1 = k then g.2 else lookupGroup rest k

/-! ## Paths, continuity and closure (external svgpathtools operations)

A svgpathtools `Path` is a list of segments.  `Path.start` / `Path.end`
are the first segment's start and the last segment's end; `continuous()`
holds when each segment starts exactly where the previous one ends, and
`continuous_subpaths()` splits the segment list into maximal continuous
runs.  Closing a path (`path.closed = True`) raises ValueError exactly
when the end point does not coincide with the start point.  These are
modelled from the spec's description of the external collaborator. -/

def path_start : List Segment → Point
  | [] => (0, 0)
  | s :: _ => s.startPt

def path_end : List Segment → Point
  | [] => (0, 0)
  | [s] => s.endPt
  | _ :: rest => path_end rest

/-- Continuity of a run of segments after a point `p`: each segment
starts exactly at the previous end. -/
def chainSeg (p : Point) : List Segment → Bool
  | [] => true
  | s :: rest => decide (s.startPt = p) && chainSeg s.endPt rest

/-- svgpathtools `Path.continuous`: adjacent segments meet exactly. -/
def isContinuousB : List Segment → Bool
  | [] => true
  | s :: rest => chainSeg s.endPt rest

/-- Helper of `continuous_subpaths`: `cur` is the (nonempty) run being
accumulated; a new run starts whenever the next segment does not start at
the current run's end point. -/
def csp (cur : List Segment) : List Segment → List (List Segment)
  | [] => [cur]
  | s :: rest =>
    if s.startPt = path_end cur then csp (cur ++ [s]) rest
    else cur :: csp [s] rest

/-- svgpathtools `Path.continuous_subpaths`: maximal continuous runs. -/
def continuous_subpaths : List Segment → List (List Segment)
  | [] => []
  | s :: rest => csp [s] rest

/-- svgpathtools: setting `path.closed = True` succeeds iff the path's
end point coincides with its start point. -/
def closable (p : List Segment) : Bool :=
  decide (path_end p = path_start p)

inductive PathError where
  | notClosable
deriving DecidableEq

instance {ε α : Type} [DecidableEq ε] [DecidableEq α] : DecidableEq (Except ε α) := by
  intro a b
  cases a <;> cases b
  case error.error x y =>
    exact if h : x = y then .isTrue (by rw [h]) else .isFalse (by simp [h])
  case ok.ok x y =>
    exact if h : x = y then .isTrue (by rw [h]) else .isFalse (by simp [h])
  case error.ok x y => exact .isFalse (by simp)
  case ok.error x y => exact .isFalse (by simp)

/-- svg_import.py lines 111-119: force one continuous subpath closed --
if it is not closable, append the straight connector
`Line(subpath.end, subpath.start)` and retry; if it still is not
closable, raise `ValueError("could ensure path is closed")`. -/
def ensure_closed (p : List Segment) : Except PathError (List Segment) :=
  if closable p then .ok p
  else
    let p2 := p ++ [Segment.line (path_end p) (path_start p)]
    if closable p2 then .ok p2 else .error PathError.notClosable

/-- svg_import.py lines 136-153, `wires_from_svg_path`: one wire per
nonempty continuous subpath. -/
def wires_from_svg_path (path : List Segment) : List (List Edge) :=
  (continuous_subpaths path).filterMap (fun sp =>
    if sp.isEmpty then none
    else some (known_continuous_edges_to_wire (edges_from_svg_path sp)))

/-- A face: the outer wire and the list of inner (hole) wires. -/
abbrev FaceModel := List Edge × List (List Edge)

/-- svg_import.py lines 110-119: the closing loop over the continuous
subpaths; the first failure aborts the whole call. -/
def close_all : List (List Segment) → Except PathError (List (List Segment))
  | [] => .ok []
  | p :: rest => do
    let q ← ensure_closed p
    let qs ← close_all rest
    pure (q :: qs)

/-- svg_import.py lines 121-133, the body of the face loop: an exterior
producing no outer wire contributes no face (skip); extra outer wires (a
warned degenerate case) are folded in as additional holes ahead of the
interior wires. -/
def face_of_pair (cps : List (List Segment)) (pr : ℕ × List ℕ) : Option FaceModel :=
  match wires_from_svg_path (cps.getD pr.1 []) with
  | [] => none
  | outer :: extra =>
    some (outer, extra ++ pr.2.map (fun j =>
      known_continuous_edges_to_wire (edges_from_svg_path (cps.getD j []))))

/-- svg_import.py lines 95-133, `faces_from_svg_path`: split into
continuous subpaths, force each closed (a failure aborts the whole call),
run the nesting resolver on the flattened closed subpaths
(`unnest_paths(*subpaths)` re-flattens its arguments), then emit one face
per surviving (exterior, interiors) pair.  `contains` is the external
containment predicate indexed by position in the flattened list. -/
def faces_from_svg_path (contains : ℕ → ℕ → Bool) (path : List Segment) :
    Except PathError (List FaceModel) :=
  (close_all (continuous_subpaths path)).bind (fun closed =>
    pure ((unnest_core (closed.flatMap continuous_subpaths).length contains).filterMap
      (face_of_pair (closed.flatMap continuous_subpaths))))

/-! ## Exact chaining predicates used by the stitcher claims -/

/-- Each edge of the run starts exactly at the previous end (`p` is the
end point of the edge before the run). -/
def chainEdgesFrom (p : Point) : List Edge → Bool
  | [] => true
  | e :: rest => decide (e.start_point = p) && chainEdgesFrom e.end_point rest

/-- Consecutive edges match exactly (gap = 0). -/
def edgesChainedExact : List Edge → Bool
  | [] => true
  | e :: rest => chainEdgesFrom e.end_point rest

/-- Each edge of the run starts within squared distance `tol ^ 2` of the
previous end point. -/
def chainEdgesWithin (tol : ℚ) (p : Point) : List Edge → Bool
  | [] => true
  | e :: rest => decide (sqDist e.start_point p ≤ tol ^ 2) && chainEdgesWithin tol e.end_point rest

/-- Consecutive output edges are within `tol` of each other. -/
def outputChained (tol : ℚ) : List Edge → Bool
  | [] => true
  | e :: rest => chainEdgesWithin tol e.end_point rest

/-- Every synthesized connector in a tagged stitcher output has a
predecessor whose end point it starts at exactly, and a successor whose
start point it ends at exactly (`prev` is the end point of the previous
output edge, if any). -/
def connectorsOKB : Option Point → List (Edge × Bool) → Bool
  | _, [] => true
  | _, (e, false) :: rest => connectorsOKB (some e.end_point) rest
  | none, (_, true) :: _ => false
  | some p, (c, true) :: rest =>
      decide (c.start_point = p) &&
      (match rest with
        | [] => false
        | (e2, _) :: _ => decide (c.end_point = e2.start_point)) &&
      connectorsOKB (some c.end_point) rest

lemma sqDist_self (p : Point) : sqDist p p = 0 := by
  simp [sqDist]

lemma sqDist_nonneg (p q : Point) : 0 ≤ sqDist p q := by
  have h1 := sq_nonneg (p.1 - q.1)
  have h2 := sq_nonneg (p.2 - q.2)
  simp only [sqDist]
  linarith

lemma dist_gt_zero_iff (tol : ℚ) (h0 : 0 ≤ tol) : dist_gt tol 0 = false := by
  simp [dist_gt, not_lt.mpr h0, not_lt.mpr (sq_nonneg tol)]

/-- The stitcher loop leaves an exactly-chained run unchanged. -/
lemma fill_gaps_core_exact (tol : ℚ) (h0 : 0 ≤ tol) :
    ∀ (l : List Edge) (p : Point), chainEdgesFrom p l = true →
      fill_gaps_core tol p l = l.map (fun e => (e, false)) := by
  intro l
  induction l with
  | nil => intro p _; rfl
  | cons e rest ih =>
    intro p hc
    simp only [chainEdgesFrom, Bool.and_eq_true, decide_eq_true_eq] at hc
    obtain ⟨hstart, hrest⟩ := hc
    simp only [fill_gaps_core, hstart, sqDist_self, dist_gt_zero_iff tol h0,
      Bool.false_eq_true, if_false, List.map_cons]
    exact congrArg _ (ih e.end_point hrest)

/-- The stitcher output chain is within tolerance at every junction. -/
lemma fill_gaps_core_chain (tol : ℚ) :
    ∀ (l : List Edge) (p : Point),
      chainEdgesWithin tol p ((fill_gaps_core tol p l).map Prod.fst) = true := by
  intro l
  induction l with
  | nil => intro p; rfl
  | cons e rest ih =>
    intro p
    by_cases h : dist_gt tol (sqDist e.start_point p) = true
    · simp only [fill_gaps_core, h, if_true, List.map_cons, chainEdgesWithin,
        Edge.make_line, Bool.and_eq_true, decide_eq_true_eq]
      refine ⟨?_, ?_, ih e.end_point⟩ <;> simpa [sqDist_self] using sq_nonneg tol
    · have hle : sqDist e.start_point p ≤ tol ^ 2 := by
        simp only [dist_gt, Bool.or_eq_true, decide_eq_true_eq, not_or] at h
        push_neg at h
        exact h.2
      simp only [fill_gaps_core, h, if_false, List.map_cons, chainEdgesWithin,
        Bool.and_eq_true, decide_eq_true_eq]
      exact ⟨hle, ih e.end_point⟩

/-- Every connector synthesized by the stitcher loop bridges its two
neighbours exactly. -/
lemma fill_gaps_core_connectors (tol : ℚ) :
    ∀ (l : List Edge) (p : Point),
      connectorsOKB (some p) (fill_gaps_core tol p l) = true := by
  intro l
  induction l with
  | nil => intro p; rfl
  | cons e rest ih =>
    intro p
    by_cases h : dist_gt tol (sqDist e.start_point p) = true
    · simp only [fill_gaps_core, h, if_true, connectorsOKB,
        Bool.and_eq_true, decide_eq_true_eq]
      exact ⟨⟨rfl, rfl⟩, ih e.end_point⟩
    · simp only [fill_gaps_core, h, if_false, connectorsOKB]
      exact ih e.end_point

/-! ## Lemmas about the nesting resolver -/

lemma py_max_aux (key : ℕ → ℕ) :
    ∀ (xs : List ℕ) (x : ℕ),
      xs.foldl (fun b c => if key b < key c then c else b) x ∈ x :: xs ∧
      key x ≤ key (xs.foldl (fun b c => if key b < key c then c else b) x) ∧
      ∀ c ∈ xs, key c ≤ key (xs.foldl (fun b c => if key b < key c then c else b) x) := by
  intro xs
  induction xs with
  | nil =>
    intro x
    exact ⟨List.mem_singleton.mpr rfl, le_refl _, by simp⟩
  | cons a rest ih =>
    intro x
    by_cases h : key x < key a
    · obtain ⟨hm, hx, hall⟩ := ih a
      simp only [List.foldl_cons, if_pos h]
      refine ⟨List.mem_cons_of_mem _ hm, le_trans (le_of_lt h) hx, ?_⟩
      intro c hc
      rcases List.mem_cons.mp hc with rfl | h1
      · exact hx
      · exact hall c h1
    · obtain ⟨hm, hx, hall⟩ := ih x
      simp only [List.foldl_cons, if_neg h]
      refine ⟨?_, hx, ?_⟩
      · rcases List.mem_cons.mp hm with h1 | h1
        · rw [h1]; exact List.mem_cons_self _ _
        · exact List.mem_cons_of_mem _ (List.mem_cons_of_mem _ h1)
      · intro c hc
        rcases List.mem_cons.mp hc with rfl | h1
        · exact le_trans (not_lt.mp h) hx
        · exact hall c h1

/-- Python `max(xs, key=k)` on a nonempty list returns a member whose key
is maximal. -/
lemma py_max_spec (key : ℕ → ℕ) (l : List ℕ) (hl : l ≠ []) :
    py_max key l ∈ l ∧ ∀ c ∈ l, key c ≤ key (py_max key l) := by
  cases l with
  | nil => exact absurd rfl hl
  | cons x xs =>
    obtain ⟨hm, hx, hall⟩ := py_max_aux key xs x
    refine ⟨hm, ?_⟩
    intro c hc
    rcases List.mem_cons.mp hc with rfl | h1
    · exact hx
    · exact hall c h1

lemma lookupGroup_addToGroup_self (d : List NestGroup) (k : ℕ) (b : Bool) (v : ℕ) :
    lookupGroup (addToGroup d k b v) k =
      (if b then ((lookupGroup d k).1 ++ [v], (lookupGroup d k).2)
       else ((lookupGroup d k).1, (lookupGroup d k).2 ++ [v])) := by
  induction d with
  | nil => cases b <;> simp [addToGroup, lookupGroup]
  | cons g rest ih =>
    by_cases h : g.1 = k
    · cases b <;> simp [addToGroup, lookupGroup, h]
    · simp [addToGroup, lookupGroup, h, ih]

lemma lookupGroup_addToGroup_other (d : List NestGroup) (k : ℕ) (b : Bool) (v : ℕ)
    (k' : ℕ) (h : k' ≠ k) :
    lookupGroup (addToGroup d k b v) k' = lookupGroup d k' := by
  induction d with
  | nil => simp [addToGroup, lookupGroup, Ne.symm h]
  | cons g rest ih =>
    by_cases hg : g.1 = k
    · simp [addToGroup, lookupGroup, hg, Ne.symm h]
    · by_cases hg' : g.1 = k'
      · simp [addToGroup, lookupGroup, hg, hg', h, Ne.symm h]
      · simp [addToGroup, lookupGroup, hg, hg', ih]

lemma mem_lookup_addToGroup_fst {d : List NestGroup} {k : ℕ} {w : ℕ}
    (k' : ℕ) (b : Bool) (v : ℕ) (h : w ∈ (lookupGroup d k).1) :
    w ∈ (lookupGroup (addToGroup d k' b v) k).1 := by
  by_cases hk : k = k'
  · subst hk
    rw [lookupGroup_addToGroup_self]
    cases b
    · simpa using h
    · simpa using Or.inl h
  · rw [lookupGroup_addToGroup_other d k' b v k hk]
    exact h

lemma mem_lookup_addToGroup_snd {d : List NestGroup} {k : ℕ} {w : ℕ}
    (k' : ℕ) (b : Bool) (v : ℕ) (h : w ∈ (lookupGroup d k).2) :
    w ∈ (lookupGroup (addToGroup d k' b v) k).2 := by
  by_cases hk : k = k'
  · subst hk
    rw [lookupGroup_addToGroup_self]
    cases b
    · simpa using Or.inl h
    · simpa using h
  · rw [lookupGroup_addToGroup_other d k' b v k hk]
    exact h

lemma mem_lookup_fold_fst (n : ℕ) (contains : ℕ → ℕ → Bool) (l : List ℕ) :
    ∀ (d : List NestGroup) (k w : ℕ), w ∈ (lookupGroup d k).1 →
      w ∈ (lookupGroup (l.foldl (nestStep n contains) d) k).1 := by
  induction l with
  | nil => intro d k w h; exact h
  | cons a rest ih =>
    intro d k w h
    exact ih _ k w (mem_lookup_addToGroup_fst _ _ _ h)

lemma mem_lookup_fold_snd (n : ℕ) (contains : ℕ → ℕ → Bool) (l : List ℕ) :
    ∀ (d : List NestGroup) (k w : ℕ), w ∈ (lookupGroup d k).2 →
      w ∈ (lookupGroup (l.foldl (nestStep n contains) d) k).2 := by
  induction l with
  | nil => intro d k w h; exact h
  | cons a rest ih =>
    intro d k w h
    exact ih _ k w (mem_lookup_addToGroup_snd _ _ _ h)

/-- Every index of the scanned list ends up recorded in the slot chosen
by `classify`. -/
lemma mem_lookup_fold_of_mem (n : ℕ) (contains : ℕ → ℕ → Bool) (l : List ℕ) :
    ∀ (d : List NestGroup) (i : ℕ), i ∈ l →
      ((classify n contains i).1 = true →
        i ∈ (lookupGroup (l.foldl (nestStep n contains) d) (classify n contains i).2).1) ∧
      ((classify n contains i).1 = false →
        i ∈ (lookupGroup (l.foldl (nestStep n contains) d) (classify n contains i).2).2) := by
  induction l with
  | nil => intro d i hi; cases hi
  | cons a rest ih =>
    intro d i hi
    rcases List.mem_cons.mp hi with rfl | hmem
    · constructor
      · intro hb
        refine mem_lookup_fold_fst n contains rest _ _ _ ?_
        unfold nestStep
        rw [hb, lookupGroup_addToGroup_self]
        simp
      · intro hb
        refine mem_lookup_fold_snd n contains rest _ _ _ ?_
        unfold nestStep
        rw [hb, lookupGroup_addToGroup_self]
        simp
    · exact ih _ i hmem

/-- When `classify` chooses the exterior role it keys the subpath by its
own index. -/
lemma classify_true_key (n : ℕ) (contains : ℕ → ℕ → Bool) (i : ℕ)
    (h : (included_in n contains i).length % 2 = 0) :
    classify n contains i = (true, i) := by
  unfold classify
  simp [h]

lemma classify_false_key (n : ℕ) (contains : ℕ → ℕ → Bool) (i : ℕ)
    (h : (included_in n contains i).length % 2 = 1) :
    classify n contains i =
      (false, py_max (fun j => (included_in n contains j).length) (included_in n contains i)) := by
  unfold classify
  simp [h]

/-! ## Multiset bookkeeping for the nesting resolver -/

/-- All subpath indices recorded in a group mapping (exteriors then
interiors of each entry). -/
def groupMembers (d : List NestGroup) : List ℕ :=
  d.flatMap (fun g => g.2.1 ++ g.2.2)

lemma groupMembers_addToGroup (d : List NestGroup) (k : ℕ) (b : Bool) (v : ℕ) :
    (groupMembers (addToGroup d k b v)).Perm (v :: groupMembers d) := by
  induction d with
  | nil =>
    cases b <;> simp [addToGroup, groupMembers]
  | cons g rest ih =>
    by_cases h : g.1 = k
    · cases b
      · simp only [addToGroup, h, if_true, if_false, Bool.false_eq_true, groupMembers,
          List.flatMap_cons, List.append_assoc, List.cons_append, List.nil_append,
          List.singleton_append]
        exact (List.Perm.append_left _ List.perm_middle).trans List.perm_middle
      · simp only [addToGroup, h, if_true, groupMembers,
          List.flatMap_cons, List.append_assoc, List.cons_append, List.nil_append,
          List.singleton_append]
        exact List.perm_middle
    · simp only [addToGroup, h, if_false, ite_false, groupMembers, List.flatMap_cons]
      exact (List.Perm.append_left _ ih).trans List.perm_middle

lemma groupMembers_fold (n : ℕ) (contains : ℕ → ℕ → Bool) (l : List ℕ) :
    ∀ d : List NestGroup,
      (groupMembers (l.foldl (nestStep n contains) d)).Perm (groupMembers d ++ l) := by
  induction l with
  | nil => intro d; simp
  | cons a rest ih =>
    intro d
    refine ((ih (nestStep n contains d a)).trans ?_)
    refine (List.Perm.append_right rest (groupMembers_addToGroup d _ _ a)).trans ?_
    simp only [List.cons_append]
    exact List.perm_middle.symm

lemma groupMembers_buildGroups (n : ℕ) (contains : ℕ → ℕ → Bool) :
    (groupMembers (buildGroups n contains)).Perm (List.range n) := by
  simpa [groupMembers] using groupMembers_fold n contains (List.range n) []

lemma flatMap_pair_nil (l : List ℕ) :
    ((l.map (fun p => (p, ([] : List ℕ)))).flatMap (fun pr => pr.1 :: pr.2)) = l := by
  induction l with
  | nil => rfl
  | cons a rest ih => simp [ih]

/-- The members yielded for one group are exactly the group's recorded
exteriors and interiors, in both the well-formed and the degraded
branch. -/
lemma yieldGroup_members (g : NestGroup) :
    ((yieldGroup g).flatMap (fun pr => pr.1 :: pr.2)).Perm (g.2.1 ++ g.2.2) := by
  rcases g with ⟨k, exts, ints⟩
  match exts with
  | [e] => simp [yieldGroup]
  | [] =>
    simp only [yieldGroup, flatMap_pair_nil, List.append_nil, List.nil_append]
    exact List.Perm.refl _
  | a :: b :: rest =>
    simp only [yieldGroup, flatMap_pair_nil]
    exact List.perm_append_comm

lemma flatMap_flatMap {α β γ : Type} (l : List α) (f : α → List β) (g : β → List γ) :
    (l.flatMap f).flatMap g = l.flatMap (fun a => (f a).flatMap g) := by
  induction l with
  | nil => rfl
  | cons a rest ih => simp [ih]

lemma flatMap_perm_congr {α β : Type} (l : List α) (f g : α → List β)
    (h : ∀ a ∈ l, (f a).Perm (g a)) :
    (l.flatMap f).Perm (l.flatMap g) := by
  induction l with
  | nil => exact List.Perm.refl _
  | cons a rest ih =>
    simp only [List.flatMap_cons]
    exact List.Perm.append (h a (List.mem_cons_self _ _))
      (ih (fun x hx => h x (List.mem_cons_of_mem _ hx)))

/-! ## Lemmas about path continuity and closure -/

lemma path_end_append_single (l : List Segment) (s : Segment) :
    path_end (l ++ [s]) = s.endPt := by
  induction l with
  | nil => rfl
  | cons a rest ih =>
    cases rest with
    | nil => rfl
    | cons b t => exact ih

lemma path_start_append (l : List Segment) (hl : l ≠ []) (m : List Segment) :
    path_start (l ++ m) = path_start l := by
  cases l with
  | nil => exact absurd rfl hl
  | cons a rest => rfl

/-- End point of a run, seeded with the point `p` reached before it. -/
def path_end_from (p : Point) (l : List Segment) : Point :=
  match l with
  | [] => p
  | _ => path_end l

lemma path_end_from_cons (a : Segment) (rest : List Segment) :
    path_end_from a.endPt rest = path_end (a :: rest) := by
  cases rest with
  | nil => rfl
  | cons b t => rfl

lemma chainSeg_append_single (s : Segment) :
    ∀ (l : List Segment) (p : Point),
      chainSeg p (l ++ [s]) = (chainSeg p l && decide (s.startPt = path_end_from p l)) := by
  intro l
  induction l with
  | nil => intro p; simp [chainSeg, path_end_from]
  | cons a rest ih =>
    intro p
    have h1 : path_end_from p (a :: rest) = path_end (a :: rest) := rfl
    simp only [List.cons_append, List.append_eq, chainSeg, ih, path_end_from_cons, h1,
      Bool.and_assoc]

lemma isContinuousB_append_single (l : List Segment) (hl : l ≠ []) (s : Segment) :
    isContinuousB (l ++ [s]) = (isContinuousB l && decide (s.startPt = path_end l)) := by
  cases l with
  | nil => exact absurd rfl hl
  | cons a rest =>
    simp only [List.cons_append, isContinuousB, chainSeg_append_single s rest a.endPt,
      path_end_from_cons]

lemma csp_of_chain :
    ∀ (rest cur : List Segment), cur ≠ [] →
      chainSeg (path_end cur) rest = true → csp cur rest = [cur ++ rest] := by
  intro rest
  induction rest with
  | nil => intro cur _ _; simp [csp]
  | cons s rest2 ih =>
    intro cur hcur hchain
    simp only [chainSeg, Bool.and_eq_true, decide_eq_true_eq] at hchain
    obtain ⟨hs, hrest⟩ := hchain
    simp only [csp, if_pos hs]
    have hne : cur ++ [s] ≠ [] := by simp
    have hend : path_end (cur ++ [s]) = s.endPt := path_end_append_single cur s
    rw [ih (cur ++ [s]) hne (by rw [hend]; exact hrest)]
    simp

lemma continuous_subpaths_self (p : List Segment) (hne : p ≠ [])
    (hcont : isContinuousB p = true) :
    continuous_subpaths p = [p] := by
  cases p with
  | nil => exact absurd rfl hne
  | cons s rest =>
    simp only [continuous_subpaths]
    exact csp_of_chain rest [s] (by simp) hcont

lemma closable_after_connector (p : List Segment) (hne : p ≠ []) :
    closable (p ++ [Segment.line (path_end p) (path_start p)]) = true := by
  unfold closable
  rw [path_end_append_single, path_start_append p hne]
  simp [Segment.endPt]

lemma ensure_closed_of_closable (p : List Segment) (h : closable p = true) :
    ensure_closed p = .ok p := by
  simp [ensure_closed, h]

lemma ensure_closed_open (p : List Segment) (hne : p ≠ []) (h : closable p = false) :
    ensure_closed p = .ok (p ++ [Segment.line (path_end p) (path_start p)]) := by
  simp [ensure_closed, h, closable_after_connector p hne]

lemma ensure_closed_error_iff (q : List Segment) :
    ensure_closed q = .error PathError.notClosable ↔
      closable q = false ∧
      closable (q ++ [Segment.line (path_end q) (path_start q)]) = false := by
  unfold ensure_closed
  rcases hq : closable q with _ | _
  · rcases hq2 : closable (q ++ [Segment.line (path_end q) (path_start q)]) with _ | _
    · simp [hq, hq2]
    · simp [hq, hq2]
  · simp [hq]

lemma close_all_ok (ps : List (List Segment)) (h : ∀ p ∈ ps, closable p = true) :
    close_all ps = .ok ps := by
  induction ps with
  | nil => rfl
  | cons p rest ih =>
    simp only [close_all,
      ensure_closed_of_closable p (h p (List.mem_cons_self _ _)),
      ih (fun x hx => h x (List.mem_cons_of_mem _ hx))]
    rfl

lemma flatMap_csp_self (ps : List (List Segment)) (hne : ∀ p ∈ ps, p ≠ [])
    (hcont : ∀ p ∈ ps, isContinuousB p = true) :
    ps.flatMap continuous_subpaths = ps := by
  induction ps with
  | nil => rfl
  | cons p rest ih =>
    simp only [List.flatMap_cons,
      continuous_subpaths_self p (hne p (List.mem_cons_self _ _))
        (hcont p (List.mem_cons_self _ _)),
      ih (fun x hx => hne x (List.mem_cons_of_mem _ hx))
        (fun x hx => hcont x (List.mem_cons_of_mem _ hx))]
    rfl

lemma wires_single (p : List Segment) (hne : p ≠ []) (hcont : isContinuousB p = true) :
    wires_from_svg_path p = [known_continuous_edges_to_wire (edges_from_svg_path p)] := by
  unfold wires_from_svg_path
  rw [continuous_subpaths_self p hne hcont]
  simp [List.isEmpty_iff, hne]

lemma filterMap_eq_map_of_some {α β : Type} (F : α → Option β) (G : α → β) :
    ∀ l : List α, (∀ a ∈ l, F a = some (G a)) → l.filterMap F = l.map G := by
  intro l
  induction l with
  | nil => intro _; rfl
  | cons a rest ih =>
    intro h
    rw [List.filterMap_cons, h a (List.mem_cons_self _ _),
      ih (fun x hx => h x (List.mem_cons_of_mem _ hx)), List.map_cons]

/-! ## The concentric-loops containment structure

For `n` concentric, evenly spaced, non-self-intersecting loops listed
innermost first, the external containment predicate holds exactly on
index pairs `i < j`. -/

/-- Containment structure of concentric loops, innermost first: loop `i`
is contained in loop `j` iff `i < j`. -/
def containsLT : ℕ → ℕ → Bool := fun i j => decide (i < j)

lemma included_in_lt (n i : ℕ) :
    included_in n containsLT i = List.range' (i + 1) (n - (i + 1)) := by
  unfold included_in containsLT
  induction n with
  | zero => simp
  | succ m ih =>
    rw [List.range_succ, List.filter_append, ih]
    by_cases h : i < m
    · have h1 : List.filter (fun j => decide (i ≠ j) && decide (i < j)) [m] = [m] := by
        simp [List.filter_cons, Nat.ne_of_lt h, h]
      rw [h1, show m + 1 - (i + 1) = (m - (i + 1)) + 1 from by omega, List.range'_concat]
      congr 2
      omega
    · have h1 : List.filter (fun j => decide (i ≠ j) && decide (i < j)) [m] = [] := by
        simp [List.filter_cons, h]
      rw [h1, show m + 1 - (i + 1) = m - (i + 1) from by omega, List.append_nil]

lemma included_in_lt_length (n i : ℕ) :
    (included_in n containsLT i).length = n - i - 1 := by
  rw [included_in_lt, List.length_range']
  omega

lemma py_max_foldl_stay (key : ℕ → ℕ) :
    ∀ (xs : List ℕ) (x : ℕ), (∀ c ∈ xs, key c ≤ key x) →
      xs.foldl (fun b c => if key b < key c then c else b) x = x := by
  intro xs
  induction xs with
  | nil => intro x _; rfl
  | cons a rest ih =>
    intro x h
    simp only [List.foldl_cons, if_neg (not_lt.mpr (h a (List.mem_cons_self _ _)))]
    exact ih x (fun c hc => h c (List.mem_cons_of_mem _ hc))

lemma py_max_head (key : ℕ → ℕ) (x : ℕ) (xs : List ℕ) (h : ∀ c ∈ xs, key c ≤ key x) :
    py_max key (x :: xs) = x :=
  py_max_foldl_stay key xs x h

/-- Among the containers of loop `i` (all loops above it), the one with
the largest containing-set size is loop `i + 1`. -/
lemma py_max_lt (n i : ℕ) (h2 : i + 2 ≤ n) :
    py_max (fun j => (included_in n containsLT j).length) (included_in n containsLT i)
      = i + 1 := by
  rw [included_in_lt, show n - (i + 1) = (n - (i + 2)) + 1 from by omega, List.range'_succ]
  apply py_max_head
  intro c hc
  rw [included_in_lt_length, included_in_lt_length]
  obtain ⟨k, hk, rfl⟩ := List.mem_range'.mp hc
  omega

lemma classify_lt (n i : ℕ) (hi : i < n) :
    classify n containsLT i =
      if (n - i - 1) % 2 = 1 then (false, i + 1) else (true, i) := by
  show (if (included_in n containsLT i).length % 2 = 1
      then (false, py_max (fun j => (included_in n containsLT j).length)
        (included_in n containsLT i))
      else (true, i)) = _
  rw [included_in_lt_length]
  by_cases hp : (n - i - 1) % 2 = 1
  · rw [if_pos hp, if_pos hp, py_max_lt n i (by omega)]
  · rw [if_neg hp, if_neg hp]

lemma addToGroup_absent (d : List NestGroup) (k : ℕ) (b : Bool) (v : ℕ)
    (h : ∀ g ∈ d, g.1 ≠ k) :
    addToGroup d k b v = d ++ [(k, if b then ([v], []) else ([], [v]))] := by
  induction d with
  | nil => rfl
  | cons g rest ih =>
    simp only [addToGroup]
    rw [if_neg (h g (List.mem_cons_self _ _)),
      ih (fun x hx => h x (List.mem_cons_of_mem _ hx)), List.cons_append]

lemma addToGroup_last (d : List NestGroup) (k : ℕ) (b : Bool) (v : ℕ)
    (x : List ℕ × List ℕ) (h : ∀ g ∈ d, g.1 ≠ k) :
    addToGroup (d ++ [(k, x)]) k b v
      = d ++ [(k, if b then (x.1 ++ [v], x.2) else (x.1, x.2 ++ [v]))] := by
  induction d with
  | nil => simp [addToGroup]
  | cons g rest ih =>
    simp only [List.cons_append, List.append_eq, addToGroup]
    rw [if_neg (h g (List.mem_cons_self _ _)),
      ih (fun y hy => h y (List.mem_cons_of_mem _ hy))]

lemma two_step_induction {P : ℕ → Prop} (h0 : P 0) (h1 : P 1)
    (hstep : ∀ n, P n → P (n + 2)) : ∀ n, P n := by
  intro n
  refine Nat.strong_induction_on n (fun n ih => ?_)
  match n, ih with
  | 0, _ => exact h0
  | 1, _ => exact h1
  | m + 2, ih => exact hstep m (ih m (by omega))

lemma foldl_congr_mem {β : Type} (f g : β → ℕ → β) :
    ∀ (l : List ℕ) (b : β), (∀ d i, i ∈ l → f d i = g d i) →
      l.foldl f b = l.foldl g b := by
  intro l
  induction l with
  | nil => intro b _; rfl
  | cons a rest ih =>
    intro b h
    simp only [List.foldl_cons]
    rw [h b a (List.mem_cons_self _ _)]
    exact ih _ (fun d i hi => h d i (List.mem_cons_of_mem _ hi))

/-- Closed form of the group mapping for `n` concentric loops: one group
per even-depth loop, each holding the loop below it as its single hole
(none for the innermost loop when `n` is odd). -/
def expectedGroups : ℕ → List NestGroup
  | 0 => []
  | 1 => [(0, ([0], []))]
  | n + 2 => expectedGroups n ++ [(n + 1, ([n + 1], [n]))]

lemma expectedGroups_keys : ∀ n, ∀ g ∈ expectedGroups n, g.1 < n := by
  refine two_step_induction ?_ ?_ ?_
  · intro g hg; cases hg
  · intro g hg
    rw [show expectedGroups 1 = [(0, ([0], []))] from rfl, List.mem_singleton] at hg
    rw [hg]
    exact Nat.zero_lt_one
  · intro n ih g hg
    rw [show expectedGroups (n + 2) = expectedGroups n ++ [(n + 1, ([n + 1], [n]))] from rfl,
      List.mem_append, List.mem_singleton] at hg
    rcases hg with hg | hg
    · have := ih g hg; omega
    · rw [hg]; omega

lemma buildGroups_lt : ∀ n, buildGroups n containsLT = expectedGroups n := by
  refine two_step_induction ?_ ?_ ?_
  · rfl
  · decide
  · intro n ih
    show buildGroups (n + 2) containsLT = expectedGroups n ++ [(n + 1, ([n + 1], [n]))]
    unfold buildGroups
    rw [show n + 2 = (n + 1) + 1 from rfl, List.range_succ, List.range_succ,
      List.foldl_append, List.foldl_append]
    have hcongr : (List.range n).foldl (nestStep (n + 2) containsLT) []
        = (List.range n).foldl (nestStep n containsLT) [] := by
      apply foldl_congr_mem
      intro d i hi
      have hi' : i < n := List.mem_range.mp hi
      unfold nestStep
      rw [classify_lt (n + 2) i (by omega), classify_lt n i hi',
        show n + 2 - i - 1 = (n - i - 1) + 2 from by omega, Nat.add_mod_right]
    rw [hcongr,
      show (List.range n).foldl (nestStep n containsLT) ([] : List NestGroup)
        = expectedGroups n from ih]
    simp only [List.foldl_cons, List.foldl_nil]
    unfold nestStep
    rw [classify_lt (n + 2) n (by omega), classify_lt (n + 2) (n + 1) (by omega),
      show n + 2 - n - 1 = 1 from by omega, show n + 2 - (n + 1) - 1 = 0 from by omega,
      if_pos (show (1 : ℕ) % 2 = 1 from rfl), if_neg (show ¬ (0 : ℕ) % 2 = 1 from by decide)]
    rw [addToGroup_absent (expectedGroups n) (n + 1) false n
      (fun g hg => by have := expectedGroups_keys n g hg; omega)]
    rw [show (if false = true then (([n], []) : List ℕ × List ℕ) else ([], [n]))
      = ([], [n]) from rfl]
    rw [addToGroup_last (expectedGroups n) (n + 1) true (n + 1) ([], [n])
      (fun g hg => by have := expectedGroups_keys n g hg; omega)]
    rfl

/-- Closed form of the resolver output for `n` concentric loops. -/
def expectedPairs : ℕ → List (ℕ × List ℕ)
  | 0 => []
  | 1 => [(0, [])]
  | n + 2 => expectedPairs n ++ [(n + 1, [n])]

lemma expectedGroups_flat : ∀ n, (expectedGroups n).flatMap yieldGroup = expectedPairs n := by
  refine two_step_induction ?_ ?_ ?_
  · rfl
  · rfl
  · intro n ih
    show (expectedGroups n ++ [(n + 1, ([n + 1], [n]))]).flatMap yieldGroup
      = expectedPairs n ++ [(n + 1, [n])]
    rw [List.flatMap_append, ih]
    rfl

lemma unnest_core_lt (n : ℕ) : unnest_core n containsLT = expectedPairs n := by
  unfold unnest_core
  rw [buildGroups_lt n, expectedGroups_flat n]

lemma expectedPairs_length : ∀ n, (expectedPairs n).length = (n + 1) / 2 := by
  refine two_step_induction ?_ ?_ ?_
  · rfl
  · rfl
  · intro n ih
    show (expectedPairs n ++ [(n + 1, [n])]).length = (n + 2 + 1) / 2
    rw [List.length_append, ih]
    simp
    omega

lemma expectedPairs_holes : ∀ n, (expectedPairs n).map (fun pr => pr.2.length)
    = (if n % 2 = 0 then List.replicate (n / 2) 1 else 0 :: List.replicate (n / 2) 1) := by
  refine two_step_induction ?_ ?_ ?_
  · rfl
  · rfl
  · intro n ih
    show (expectedPairs n ++ [(n + 1, [n])]).map (fun pr => pr.2.length) = _
    rw [List.map_append, ih]
    by_cases hp : n % 2 = 0
    · rw [if_pos hp, if_pos (show (n + 2) % 2 = 0 by omega),
        show (n + 2) / 2 = n / 2 + 1 from by omega, List.replicate_succ']
      rfl
    · rw [if_neg hp, if_neg (show ¬ (n + 2) % 2 = 0 by omega),
        show (n + 2) / 2 = n / 2 + 1 from by omega, List.replicate_succ']
      rfl

lemma expectedPairs_bounds : ∀ n, ∀ pr ∈ expectedPairs n, pr.1 < n ∧ ∀ j ∈ pr.2, j < n := by
  refine two_step_induction ?_ ?_ ?_
  · intro pr hpr; cases hpr
  · intro pr hpr
    rw [show expectedPairs 1 = [(0, [])] from rfl, List.mem_singleton] at hpr
    rw [hpr]
    exact ⟨Nat.zero_lt_one, by simp⟩
  · intro n ih pr hpr
    rw [show expectedPairs (n + 2) = expectedPairs n ++ [(n + 1, [n])] from rfl,
      List.mem_append, List.mem_singleton] at hpr
    rcases hpr with hpr | hpr
    · obtain ⟨h1, h2⟩ := ih pr hpr
      exact ⟨by omega, fun j hj => by have := h2 j hj; omega⟩
    · rw [hpr]
      exact ⟨by omega, fun j hj => by simp at hj; omega⟩

/-! ## Concrete fixtures for counterexamples and witnesses -/

/-- A quarter-circle arc traversed against the angular direction:
`theta = 90`, signed sweep `delta = -90`, sweep flag false. -/
def negArc : ArcSeg :=
  { astart := (0, 45), aend := (45, 0), center := (0, 0), rx := 45, ry := 45,
    theta := 90, delta := -90, phi := 0, sweep := false }

/-- A quarter-circle arc with positive sweep. -/
def posArc : ArcSeg :=
  { astart := (45, 0), aend := (0, 45), center := (0, 0), rx := 45, ry := 45,
    theta := 0, delta := 90, phi := 0, sweep := true }

/-- An open continuous two-segment path (start `(0,0)`, end `(1,1)`). -/
def openPath : List Segment :=
  [Segment.line (0, 0) (0, 1), Segment.line (0, 1) (1, 1)]

/-- A small closed triangular loop. -/
def triA : List Segment :=
  [Segment.line (0, 0) (1, 0), Segment.line (1, 0) (0, 1), Segment.line (0, 1) (0, 0)]

/-- A second closed triangular loop, disjoint from the first. -/
def triB : List Segment :=
  [Segment.line (5, 5) (7, 5), Segment.line (7, 5) (5, 7), Segment.line (5, 7) (5, 5)]

/-- Two edges with a gap of `5e-7` between them (strictly between the
hardcoded `1e-7` and the claimed `1e-6`). -/
def gapEdgeA : Edge := Edge.make_line (0, 0) (1, 0)

def gapEdgeB : Edge := Edge.make_line (1 + 1 / 2000000, 0) (2, 0)

/-! ## Claim theorems -/

/-- Claim C2, counterexample: for the arc with `theta = 90` and signed
sweep `delta = -90`, the start angle handed to `Edge.make_ellipse` is
`min(90, 0) = 0`, not the segment's own `theta = 90`, and the end angle is
`90`, not `theta + delta = 0`: the builder does reorder the two angles
numerically. -/
theorem arc_angles_reordered_counterexample :
    ¬ ((arcToEllipseSpec negArc).start_angle = negArc.theta ∧
       (arcToEllipseSpec negArc).end_angle = negArc.theta + negArc.delta) := by
  norm_num [arcToEllipseSpec, negArc, min_def]

/-- Claim C2 (amended): the curve builder passes the direction flag
`COUNTER_CLOCKWISE` iff the sweep flag is set, and passes the numerically
ordered pair `min(theta, theta + delta)`, `max(theta, theta + delta)` as
start and end angle: for a non-negative sweep this is `(theta,
theta + delta)` as claimed, but for a negative sweep the two angles are
swapped. -/
theorem arc_angles_ordered (a : ArcSeg) :
    (arcToEllipseSpec a).ccw = a.sweep ∧
    (0 ≤ a.delta →
      (arcToEllipseSpec a).start_angle = a.theta ∧
      (arcToEllipseSpec a).end_angle = a.theta + a.delta) ∧
    (a.delta < 0 →
      (arcToEllipseSpec a).start_angle = a.theta + a.delta ∧
      (arcToEllipseSpec a).end_angle = a.theta) := by
  refine ⟨rfl, fun h => ⟨?_, ?_⟩, fun h => ⟨?_, ?_⟩⟩
  · show min a.theta (a.theta + a.delta) = a.theta
    exact min_eq_left (by linarith)
  · show max a.theta (a.theta + a.delta) = a.theta + a.delta
    exact max_eq_right (by linarith)
  · show min a.theta (a.theta + a.delta) = a.theta + a.delta
    exact min_eq_right (by linarith)
  · show max a.theta (a.theta + a.delta) = a.theta
    exact max_eq_left (by linarith)

theorem arc_angles_ordered_witness :
    ((0 : ℚ) ≤ posArc.delta ∧
      (arcToEllipseSpec posArc).start_angle = posArc.theta ∧
      (arcToEllipseSpec posArc).end_angle = posArc.theta + posArc.delta) ∧
    (negArc.delta < 0 ∧
      (arcToEllipseSpec negArc).start_angle = negArc.theta + negArc.delta ∧
      (arcToEllipseSpec negArc).end_angle = negArc.theta) :=
  ⟨⟨by norm_num [posArc], (arc_angles_ordered posArc).2.1 (by norm_num [posArc])⟩,
   ⟨by norm_num [negArc], (arc_angles_ordered negArc).2.2 (by norm_num [negArc])⟩⟩

/-- Claim C3, counterexample: on two known-continuous edges separated by
a gap of `5e-7`, the wire assembler inserts a connector (3 edges out)
while stitching with the claimed default tolerance `1e-6` does not
(2 edges out): the tolerance actually used is not `1e-6`. -/
theorem wire_tolerance_counterexample :
    known_continuous_edges_to_wire [gapEdgeA, gapEdgeB]
        ≠ fill_gaps_between_edges [gapEdgeA, gapEdgeB] (1 / 1000000) ∧
    (known_continuous_edges_to_wire [gapEdgeA, gapEdgeB]).length = 3 ∧
    (fill_gaps_between_edges [gapEdgeA, gapEdgeB] (1 / 1000000)).length = 2 := by
  have hL1 : (known_continuous_edges_to_wire [gapEdgeA, gapEdgeB]).length = 3 := by
    norm_num [known_continuous_edges_to_wire, fill_gaps_between_edges, fill_gaps_tagged,
      fill_gaps_core, dist_gt, sqDist, gapEdgeA, gapEdgeB, Edge.make_line, List.filter]
  have hL2 : (fill_gaps_between_edges [gapEdgeA, gapEdgeB] (1 / 1000000)).length = 2 := by
    norm_num [fill_gaps_between_edges, fill_gaps_tagged,
      fill_gaps_core, dist_gt, sqDist, gapEdgeA, gapEdgeB, Edge.make_line, List.filter]
  refine ⟨fun h => ?_, hL1, hL2⟩
  rw [h, hL2] at hL1
  exact absurd hL1 (by norm_num)

/-- Claim C3 (amended): the gap-filling tolerance used by the wire
assembler is the hardcoded `1e-7` (and no caller can override it): a gap
strictly between `1e-7` and `1e-6` gets a synthesized connector from
`known_continuous_edges_to_wire`, although stitching the same edges at
the claimed `1e-6` default leaves them alone. -/
theorem wire_tolerance_is_1e7 (e1 e2 : Edge)
    (h1 : e1.is_valid = true) (h2 : e2.is_valid = true)
    (hlo : ((1 : ℚ) / 10000000) ^ 2 < sqDist e2.start_point e1.end_point)
    (hhi : sqDist e2.start_point e1.end_point ≤ ((1 : ℚ) / 1000000) ^ 2) :
    known_continuous_edges_to_wire [e1, e2]
        = [e1, Edge.make_line e1.end_point e2.start_point, e2] ∧
    fill_gaps_between_edges [e1, e2] (1 / 1000000) = [e1, e2] := by
  have hfil : [e1, e2].filter Edge.is_valid = [e1, e2] := by
    simp [List.filter, h1, h2]
  have hgt : dist_gt (1 / 10000000) (sqDist e2.start_point e1.end_point) = true := by
    simp only [dist_gt, Bool.or_eq_true, decide_eq_true_eq]
    exact Or.inr hlo
  have hng : dist_gt (1 / 1000000) (sqDist e2.start_point e1.end_point) = false := by
    simp only [dist_gt, Bool.or_eq_false_iff, decide_eq_false_iff_not]
    exact ⟨by norm_num, not_lt.mpr hhi⟩
  constructor
  · show fill_gaps_between_edges [e1, e2] (1 / 10000000) = _
    unfold fill_gaps_between_edges fill_gaps_tagged
    rw [hfil]
    simp only [fill_gaps_core]
    rw [hgt]
    simp
  · unfold fill_gaps_between_edges fill_gaps_tagged
    rw [hfil]
    simp only [fill_gaps_core]
    rw [hng]
    simp

theorem wire_tolerance_is_1e7_witness :
    (gapEdgeA.is_valid = true ∧ gapEdgeB.is_valid = true ∧
      ((1 : ℚ) / 10000000) ^ 2 < sqDist gapEdgeB.start_point gapEdgeA.end_point ∧
      sqDist gapEdgeB.start_point gapEdgeA.end_point ≤ ((1 : ℚ) / 1000000) ^ 2) ∧
    known_continuous_edges_to_wire [gapEdgeA, gapEdgeB]
        = [gapEdgeA, Edge.make_line gapEdgeA.end_point gapEdgeB.start_point, gapEdgeB] :=
  ⟨⟨rfl, rfl,
    by norm_num [gapEdgeA, gapEdgeB, Edge.make_line, sqDist],
    by norm_num [gapEdgeA, gapEdgeB, Edge.make_line, sqDist]⟩,
   (wire_tolerance_is_1e7 gapEdgeA gapEdgeB rfl rfl
      (by norm_num [gapEdgeA, gapEdgeB, Edge.make_line, sqDist])
      (by norm_num [gapEdgeA, gapEdgeB, Edge.make_line, sqDist])).1⟩

/-- Claim C4, counterexample: a segment of unrecognized type yields no
curve and raises no error -- it is silently dropped, so a path containing
one produces exactly the curves of the path without it, contradicting the
claimed fail-fast behavior. -/
theorem edges_unrecognized_counterexample :
    edges_from_svg_path [Segment.other (0, 0) (1, 1)] = [] ∧
    edges_from_svg_path
        [Segment.line (0, 0) (1, 0), Segment.other (1, 0) (1, 1),
         Segment.line (1, 1) (0, 0)]
      = edges_from_svg_path [Segment.line (0, 0) (1, 0), Segment.line (1, 1) (0, 0)] := by
  exact ⟨rfl, rfl⟩

/-- Claim C4 (amended): every recognized segment type (line, quadratic
curve, cubic curve, elliptical arc) yields exactly one curve, but a
segment of unrecognized type is silently skipped -- the output equals the
output on the recognized segments alone, with one curve per recognized
segment, and no error is ever raised. -/
theorem edges_skip_unrecognized (segs : List Segment) :
    edges_from_svg_path segs = edges_from_svg_path (segs.filter Segment.recognized) ∧
    (edges_from_svg_path segs).length = segs.countP Segment.recognized := by
  induction segs with
  | nil => exact ⟨rfl, rfl⟩
  | cons s rest ih =>
    obtain ⟨ih1, ih2⟩ := ih
    have ih2' : (edges_from_svg_path (rest.filter Segment.recognized)).length
        = rest.countP Segment.recognized := ih1 ▸ ih2
    cases s <;>
      simp [edges_from_svg_path, Segment.recognized, List.filter_cons,
        List.countP_cons, ih1, ih2, ih2']

/-- Claim C8: stitching a sequence of valid curves whose consecutive
endpoints already match exactly returns the identical sequence with zero
synthesized connectors. -/
theorem fill_gaps_exact_roundtrip (edges : List Edge) (tolerance : ℚ)
    (h0 : 0 ≤ tolerance)
    (hv : ∀ e ∈ edges, e.is_valid = true)
    (hc : edgesChainedExact edges = true) :
    fill_gaps_between_edges edges tolerance = edges ∧
    (fill_gaps_tagged edges tolerance).countP (fun x => x.2) = 0 := by
  have hfil : edges.filter Edge.is_valid = edges := List.filter_eq_self.mpr hv
  have htag : fill_gaps_tagged edges tolerance = edges.map (fun e => (e, false)) := by
    unfold fill_gaps_tagged
    rw [hfil]
    cases edges with
    | nil => rfl
    | cons e rest =>
      simp only [edgesChainedExact] at hc
      simp only [List.map_cons]
      exact congrArg _ (fill_gaps_core_exact tolerance h0 rest e.end_point hc)
  constructor
  · unfold fill_gaps_between_edges
    rw [htag, List.map_map]
    have hcomp : (Prod.fst ∘ fun e : Edge => (e, false)) = id := rfl
    rw [hcomp, List.map_id]
  · rw [htag]
    simp

theorem fill_gaps_exact_roundtrip_witness :
    ((0 : ℚ) ≤ 1 / 10000000 ∧
      (∀ e ∈ [Edge.make_line (0, 0) (1, 0), Edge.make_line (1, 0) (1, 1)], e.is_valid = true) ∧
      edgesChainedExact [Edge.make_line (0, 0) (1, 0), Edge.make_line (1, 0) (1, 1)] = true) ∧
    fill_gaps_between_edges [Edge.make_line (0, 0) (1, 0), Edge.make_line (1, 0) (1, 1)]
        (1 / 10000000)
      = [Edge.make_line (0, 0) (1, 0), Edge.make_line (1, 0) (1, 1)] :=
  ⟨⟨by norm_num, by simp [Edge.make_line],
    by norm_num [edgesChainedExact, chainEdgesFrom, Edge.make_line]⟩,
   (fill_gaps_exact_roundtrip _ _ (by norm_num) (by simp [Edge.make_line])
      (by norm_num [edgesChainedExact, chainEdgesFrom, Edge.make_line])).1⟩

/-- Claim C9: for every input edge sequence and every (non-negative)
tolerance, the stitcher output is end-to-start continuous -- each
consecutive pair of output edges is within the tolerance (squared-distance
form), and each synthesized connector starts exactly at the preceding
emitted edge's end point and ends exactly at the following edge's start
point. -/
theorem fill_gaps_output_continuous (edges : List Edge) (tolerance : ℚ)
    (h0 : 0 ≤ tolerance) :
    outputChained tolerance (fill_gaps_between_edges edges tolerance) = true ∧
    connectorsOKB none (fill_gaps_tagged edges tolerance) = true := by
  unfold fill_gaps_between_edges fill_gaps_tagged
  cases hfil : edges.filter Edge.is_valid with
  | nil => exact ⟨rfl, rfl⟩
  | cons e rest =>
    refine ⟨?_, ?_⟩
    · simp only [List.map_cons, outputChained]
      exact fill_gaps_core_chain tolerance rest e.end_point
    · simp only [connectorsOKB]
      exact fill_gaps_core_connectors tolerance rest e.end_point

theorem fill_gaps_output_continuous_witness :
    (0 : ℚ) ≤ 1 / 10000000 ∧
    outputChained (1 / 10000000)
        (fill_gaps_between_edges [gapEdgeA, gapEdgeB] (1 / 10000000)) = true ∧
    connectorsOKB none (fill_gaps_tagged [gapEdgeA, gapEdgeB] (1 / 10000000)) = true :=
  ⟨by norm_num, fill_gaps_output_continuous [gapEdgeA, gapEdgeB] _ (by norm_num)⟩

/-- A containment predicate making every pair of distinct subpaths
contain each other (mutual containment -- ill-formed nesting such as two
identical loops). -/
def allContains : ℕ → ℕ → Bool := fun _ _ => true

/-- Claim C1: each subpath of odd containment depth is recorded as a hole
of its innermost ancestor -- the container with the largest
containing-set size among its own containers -- while each subpath of
even depth (including depth 0) is recorded as an outer boundary under its
own key. -/
theorem unnest_classifies_by_parity (n : ℕ) (contains : ℕ → ℕ → Bool) (i : ℕ) (hi : i < n) :
    ((included_in n contains i).length % 2 = 1 →
      py_max (fun j => (included_in n contains j).length) (included_in n contains i)
          ∈ included_in n contains i ∧
      (∀ j ∈ included_in n contains i,
        (included_in n contains j).length ≤
          (included_in n contains
            (py_max (fun j => (included_in n contains j).length)
              (included_in n contains i))).length) ∧
      i ∈ (lookupGroup (buildGroups n contains)
            (py_max (fun j => (included_in n contains j).length)
              (included_in n contains i))).2) ∧
    ((included_in n contains i).length % 2 = 0 →
      i ∈ (lookupGroup (buildGroups n contains) i).1) := by
  have hmem := mem_lookup_fold_of_mem n contains (List.range n) [] i (List.mem_range.mpr hi)
  constructor
  · intro hodd
    have hne : included_in n contains i ≠ [] := by
      intro hnil
      rw [hnil] at hodd
      simp at hodd
    obtain ⟨hmax_mem, hmax_le⟩ :=
      py_max_spec (fun j => (included_in n contains j).length) (included_in n contains i) hne
    refine ⟨hmax_mem, hmax_le, ?_⟩
    have hcl := classify_false_key n contains i hodd
    have := hmem.2 (by rw [hcl])
    rwa [hcl] at this
  · intro heven
    have hcl := classify_true_key n contains i heven
    have := hmem.1 (by rw [hcl])
    rwa [hcl] at this

theorem unnest_classifies_by_parity_witness :
    ((0 : ℕ) < 2 ∧
      (included_in 2 allContains 0).length % 2 = 1 ∧
      0 ∈ (lookupGroup (buildGroups 2 allContains)
            (py_max (fun j => (included_in 2 allContains j).length)
              (included_in 2 allContains 0))).2) ∧
    ((1 : ℕ) < 3 ∧
      (included_in 3 (fun _ _ => false) 1).length % 2 = 0 ∧
      1 ∈ (lookupGroup (buildGroups 3 (fun _ _ => false)) 1).1) :=
  ⟨⟨by decide, by decide,
    ((unnest_classifies_by_parity 2 allContains 0 (by decide)).1 (by decide)).2.2⟩,
   ⟨by decide, by decide,
    (unnest_classifies_by_parity 3 (fun _ _ => false) 1 (by decide)).2 (by decide)⟩⟩

/-- Claim C6: whenever a group carries zero or more than one recorded
exterior entries, every member of that group (interiors and exterior
candidates alike) is yielded as an independent outer boundary with an
empty hole list; `unnest_core` is total, so no exception is possible. -/
theorem unnest_degraded_group (n : ℕ) (contains : ℕ → ℕ → Bool) (g : NestGroup)
    (hg : g ∈ buildGroups n contains) (hlen : g.2.1.length ≠ 1) :
    ∀ p ∈ g.2.2 ++ g.2.1, (p, ([] : List ℕ)) ∈ unnest_core n contains := by
  intro p hp
  unfold unnest_core
  refine List.mem_flatMap.mpr ⟨g, hg, ?_⟩
  obtain ⟨k, exts, ints⟩ := g
  match exts, hlen, hp with
  | [], _, hp =>
    simp only [yieldGroup]
    exact List.mem_map.mpr ⟨p, by simpa using hp, rfl⟩
  | [e], hlen, _ => exact absurd rfl hlen
  | a :: b :: rest, _, hp =>
    simp only [yieldGroup]
    exact List.mem_map.mpr ⟨p, by simpa using hp, rfl⟩

theorem unnest_degraded_group_witness :
    ((1, ([], [0])) : NestGroup) ∈ buildGroups 2 allContains ∧
    (([] : List ℕ).length ≠ 1) ∧
    (0, ([] : List ℕ)) ∈ unnest_core 2 allContains :=
  ⟨by decide, by decide,
   unnest_degraded_group 2 allContains (1, ([], [0])) (by decide) (by decide) 0 (by decide)⟩

/-- Evaluation of one step of the closing loop on a singleton list. -/
lemma close_all_single (p q : List Segment) (h : ensure_closed p = .ok q) :
    close_all [p] = .ok [q] := by
  unfold close_all
  rw [h]
  rfl

/-- Claim C5: a continuous subpath routed to face extraction whose start
and end do not coincide is force-closed by appending exactly one straight
connector from its end to its start, and the call yields exactly one
region; a subpath that is already closed gets no connector; the hard
`ValueError` is raised exactly when the subpath is still not closable
after the connector has been appended. -/
theorem faces_force_close (contains : ℕ → ℕ → Bool) (p : List Segment)
    (hne : p ≠ []) (hcont : isContinuousB p = true) (hopen : closable p = false) :
    ensure_closed p = .ok (p ++ [Segment.line (path_end p) (path_start p)]) ∧
    (∃ f, faces_from_svg_path contains p = .ok [f]) ∧
    (∀ q, closable q = true → ensure_closed q = .ok q) ∧
    (∀ q, ensure_closed q = .error PathError.notClosable ↔
      closable q = false ∧
      closable (q ++ [Segment.line (path_end q) (path_start q)]) = false) := by
  have hclose := ensure_closed_open p hne hopen
  set p2 := p ++ [Segment.line (path_end p) (path_start p)] with hp2
  have hne2 : p2 ≠ [] := by simp [hp2]
  have hcont2 : isContinuousB p2 = true := by
    rw [hp2, isContinuousB_append_single p hne]
    simp [hcont, Segment.startPt]
  refine ⟨hclose, ?_, fun q hq => ensure_closed_of_closable q hq,
    fun q => ensure_closed_error_iff q⟩
  refine ⟨(known_continuous_edges_to_wire (edges_from_svg_path p2), []), ?_⟩
  have hsplit : continuous_subpaths p = [p] := continuous_subpaths_self p hne hcont
  have hflat : [p2].flatMap continuous_subpaths = [p2] := by
    simp [continuous_subpaths_self p2 hne2 hcont2]
  have hface : face_of_pair [p2] (0, []) =
      some (known_continuous_edges_to_wire (edges_from_svg_path p2), []) := by
    unfold face_of_pair
    rw [show ([p2].getD 0 []) = p2 from rfl, wires_single p2 hne2 hcont2]
    rfl
  have hres : faces_from_svg_path contains p =
      pure ((unnest_core 1 contains).filterMap (face_of_pair [p2])) := by
    unfold faces_from_svg_path
    rw [hsplit, close_all_single p p2 hclose]
    show pure ((unnest_core ([p2].flatMap continuous_subpaths).length contains).filterMap
      (face_of_pair ([p2].flatMap continuous_subpaths))) = _
    rw [hflat]
    rfl
  rw [hres, show unnest_core 1 contains = [(0, [])] from rfl, List.filterMap_cons, hface]
  rfl

theorem faces_force_close_witness :
    (openPath ≠ [] ∧ isContinuousB openPath = true ∧ closable openPath = false) ∧
    ensure_closed openPath
      = .ok (openPath ++ [Segment.line (path_end openPath) (path_start openPath)]) ∧
    (∃ f, faces_from_svg_path (fun _ _ => false) openPath = .ok [f]) :=
  ⟨⟨by simp [openPath],
    by norm_num [openPath, isContinuousB, chainSeg, Segment.startPt, Segment.endPt],
    by norm_num [openPath, closable, path_end, path_start, Segment.startPt, Segment.endPt]⟩,
   (faces_force_close (fun _ _ => false) openPath (by simp [openPath])
      (by norm_num [openPath, isContinuousB, chainSeg, Segment.startPt, Segment.endPt])
      (by norm_num [openPath, closable, path_end, path_start,
        Segment.startPt, Segment.endPt])).1,
   (faces_force_close (fun _ _ => false) openPath (by simp [openPath])
      (by norm_num [openPath, isContinuousB, chainSeg, Segment.startPt, Segment.endPt])
      (by norm_num [openPath, closable, path_end, path_start,
        Segment.startPt, Segment.endPt])).2.1⟩

/-- Claim C7: a path splitting into `n ≥ 1` closed continuous subpaths
whose containment structure is that of concentric loops listed innermost
first (loop `i` inside loop `j` iff `i < j`) yields exactly
`ceil(n/2) = (n+1)/2` faces; for even `n` every face has exactly one
hole, for odd `n` the first face has none and every other face has
exactly one. -/
theorem concentric_loops_faces (path : List Segment) (ps : List (List Segment))
    (hsplit : continuous_subpaths path = ps)
    (hne : ∀ p ∈ ps, p ≠ [])
    (hcont : ∀ p ∈ ps, isContinuousB p = true)
    (hclosed : ∀ p ∈ ps, closable p = true)
    (hn : 1 ≤ ps.length) :
    ∃ faces, faces_from_svg_path containsLT path = .ok faces ∧
      faces.length = (ps.length + 1) / 2 ∧
      faces.map (fun f => f.2.length) =
        (if ps.length % 2 = 0 then List.replicate (ps.length / 2) 1
         else 0 :: List.replicate (ps.length / 2) 1) := by
  have hflat : ps.flatMap continuous_subpaths = ps := flatMap_csp_self ps hne hcont
  have hca : close_all ps = .ok ps := close_all_ok ps hclosed
  have hres : faces_from_svg_path containsLT path
      = pure ((unnest_core ps.length containsLT).filterMap (face_of_pair ps)) := by
    unfold faces_from_svg_path
    rw [hsplit, hca]
    show pure ((unnest_core (ps.flatMap continuous_subpaths).length containsLT).filterMap
      (face_of_pair (ps.flatMap continuous_subpaths))) = _
    rw [hflat]
  have hFsome : ∀ pr ∈ unnest_core ps.length containsLT,
      face_of_pair ps pr = some
        (known_continuous_edges_to_wire (edges_from_svg_path (ps.getD pr.1 [])),
         pr.2.map (fun j =>
           known_continuous_edges_to_wire (edges_from_svg_path (ps.getD j [])))) := by
    intro pr hpr
    rw [unnest_core_lt] at hpr
    obtain ⟨h1, _⟩ := expectedPairs_bounds ps.length pr hpr
    have hmem : ps.getD pr.1 [] ∈ ps := by
      rw [List.getD_eq_getElem ps [] h1]
      exact List.getElem_mem h1
    unfold face_of_pair
    rw [wires_single _ (hne _ hmem) (hcont _ hmem)]
    rfl
  have hfaces : (unnest_core ps.length containsLT).filterMap (face_of_pair ps)
      = (unnest_core ps.length containsLT).map (fun pr =>
        (known_continuous_edges_to_wire (edges_from_svg_path (ps.getD pr.1 [])),
         pr.2.map (fun j =>
           known_continuous_edges_to_wire (edges_from_svg_path (ps.getD j []))))) :=
    filterMap_eq_map_of_some _ _ _ hFsome
  refine ⟨_, by rw [hres, hfaces]; rfl, ?_, ?_⟩
  · rw [List.length_map, unnest_core_lt, expectedPairs_length]
  · rw [List.map_map, unnest_core_lt,
      show ((fun f : FaceModel => f.2.length) ∘ fun pr : ℕ × List ℕ =>
        (known_continuous_edges_to_wire (edges_from_svg_path (ps.getD pr.1 [])),
         pr.2.map (fun j =>
           known_continuous_edges_to_wire (edges_from_svg_path (ps.getD j [])))))
        = fun pr : ℕ × List ℕ => pr.2.length from funext (fun pr => by simp),
      expectedPairs_holes]

theorem concentric_loops_faces_witness :
    (continuous_subpaths (triA ++ triB) = [triA, triB] ∧
      (∀ p ∈ [triA, triB], p ≠ []) ∧
      (∀ p ∈ [triA, triB], isContinuousB p = true) ∧
      (∀ p ∈ [triA, triB], closable p = true) ∧
      1 ≤ ([triA, triB] : List (List Segment)).length) ∧
    (∃ faces, faces_from_svg_path containsLT (triA ++ triB) = .ok faces ∧
      faces.length = (([triA, triB] : List (List Segment)).length + 1) / 2 ∧
      faces.map (fun f => f.2.length) =
        (if ([triA, triB] : List (List Segment)).length % 2 = 0
         then List.replicate (([triA, triB] : List (List Segment)).length / 2) 1
         else 0 :: List.replicate (([triA, triB] : List (List Segment)).length / 2) 1)) :=
  ⟨⟨by norm_num [triA, triB, continuous_subpaths, csp, path_end,
      Segment.startPt, Segment.endPt],
    by simp [triA, triB],
    by norm_num [triA, triB, isContinuousB, chainSeg, Segment.startPt, Segment.endPt],
    by norm_num [triA, triB, closable, path_end, path_start,
      Segment.startPt, Segment.endPt],
    by simp⟩,
   concentric_loops_faces (triA ++ triB) [triA, triB]
    (by norm_num [triA, triB, continuous_subpaths, csp, path_end,
      Segment.startPt, Segment.endPt])
    (by simp [triA, triB])
    (by norm_num [triA, triB, isContinuousB, chainSeg, Segment.startPt, Segment.endPt])
    (by norm_num [triA, triB, closable, path_end, path_start,
      Segment.startPt, Segment.endPt])
    (by simp)⟩

/-- Claim C10: across all pairs yielded by the nesting resolver, every
input subpath index appears exactly once -- the concatenation of each
pair's exterior and holes is a permutation of the input indices, in the
well-formed and the degraded branch alike. -/
theorem unnest_yields_each_subpath_once (n : ℕ) (contains : ℕ → ℕ → Bool) :
    ((unnest_core n contains).flatMap (fun pr => pr.1 :: pr.2)).Perm (List.range n) := by
  unfold unnest_core
  rw [flatMap_flatMap]
  refine (flatMap_perm_congr _ _ (fun g : NestGroup => g.2.1 ++ g.2.2)
    (fun g _ => yieldGroup_members g)).trans ?_
  simpa [groupMembers] using groupMembers_buildGroups n contains

end SvgImport
